import Mathlib

/-!
Verification development for `osmnx_color_roads.py`.

The Python source is shallowly embedded: every function of the file
(`palette_generator`, `color_for_road`, `find_common_words`, `get_data`,
`generate_image`) is translated to a Lean definition over explicit data.
External collaborators (the `osmnx` graph provider and the `seaborn`
`husl_palette` color generator) are passed in as oracle parameters, as the
program only consumes their results.  Python dynamic values that can appear
in the `name` column of the edge table are modelled by the inductive type
`PyVal`; Python floats are represented by their NaN missing-value sentinel,
because the program only ever inspects the *type tag* of a float name
(`type(row['name']) is float`) and never a float value.  Channel values of
generated colors (Python floats in `[0, 1]`) are modelled by exact
rationals.
-/

namespace OsmnxColorRoads

/-- Python runtime values that can appear as an edge `name`:
a string, the float NaN missing-value sentinel (pandas fills absent names
with NaN, and the program treats every float alike, by type tag only),
an integer, or Python `None`. -/
inductive PyVal where
  | s (v : String)
  | nan
  | int (n : Int)
  | none

/-- Models Python `str()` on the values of `PyVal`.  `str(None)` is
`"None"`; `str` of an integer is its decimal form with a leading minus for
negatives, which is what Lean `toString` on `Int` produces. -/
def pyStr : PyVal → String
  | .s v => v
  | .nan => "nan"
  | .int n => toString n
  | .none => "None"

/-- Is the value a Python float?  Models the check `type(row['name']) is float`. -/
def isFloat : PyVal → Bool
  | .nan => true
  | _ => false

/-- One edge row of the edge table: only the `name` attribute is consumed. -/
structure Edge where
  name : PyVal

/-- The street graph, reduced to what the program reads from it: its edge rows. -/
structure Graph where
  edges : List Edge

/-- Models Python `str.lower()` (basic-latin case folding, which is all the
program's data exercises). -/
def pyLower (s : String) : String :=
  String.mk (s.data.map Char.toLower)

/-- The apostrophe character, built from its code point. -/
def apos : String :=
  String.singleton (Char.ofNat 39)

/-- The static stop-word list `STOP_WORDS` of the source, verbatim. -/
def STOP_WORDS : List String :=
  [ "the", "le",
    "hong", "west", "central", "wan", "tai", "shing", "tung",
    "wong", "man", "fu", "queen" ++ apos ++ "s", "kong", "hing", "mount",
    "sri", "galle", "de", "perera", "marine",
    "main", "hall", "park", "gap", "no", "rock", "land",
    "tenantry", "view", "village", "bay",
    "del",
    "1er", "5ta",
    "1st", "2nd", "3rd", "4th", "5th",
    "1ro", "2do", "3ro", "4to", "5to",
    "1º", "2º", "3º", "4º", "5º",
    "san", "market",
    "kamehameha",
    "tuas", "bukit",
    "mission" ]

/-- Models Python `str.isdigit()`: nonempty and every character a digit
(the program's data only exercises the ASCII digits). -/
def pyIsDigit (s : String) : Bool :=
  !s.data.isEmpty && s.data.all Char.isDigit

/-- Split a character list at every space character, keeping empty pieces,
exactly as Python `str.split(' ')` does. -/
def splitOnSpaceChars : List Char → List (List Char)
  | [] => [[]]
  | c :: rest =>
    let r := splitOnSpaceChars rest
    if c = ' ' then [] :: r
    else
      match r with
      | [] => [[c]]
      | t :: ts => (c :: t) :: ts

/-- Models Python `s.split(' ')`. -/
def pySplit (s : String) : List String :=
  (splitOnSpaceChars s.data).map String.mk

/-- The token filter of `find_common_words`:
`word.lower() not in STOP_WORDS and len(word) > 1 and not word.isdigit()`. -/
def validWord (word : String) : Bool :=
  !(STOP_WORDS.contains (pyLower word)) && decide (word.length > 1) && !(pyIsDigit word)

/-- The tokens one edge name contributes in `find_common_words`: float
names are skipped (`type(row['name']) is float` → `continue`), every other
value is coerced with `str()`, split on single spaces, filtered by
`validWord` and lowercased. -/
def extract_words (name : PyVal) : List String :=
  match name with
  | .nan => []
  | v => ((pySplit (pyStr v)).filter validWord).map pyLower

/-- Models `occurrences[word] += 1` on a `defaultdict(int)` kept as an
association list in key-insertion order: a fresh word is appended at the
end with count 1, an existing word has its count incremented in place. -/
def addWord (occ : List (String × Nat)) (w : String) : List (String × Nat) :=
  match occ with
  | [] => [(w, 1)]
  | (x, c) :: rest => if x = w then (x, c + 1) :: rest else (x, c) :: addWord rest w

/-- The function `find_common_words(edges)` of the source: fold every
token of every edge name into the occurrence mapping. -/
def find_common_words (edges : List Edge) : List (String × Nat) :=
  edges.foldl (fun occ e => (extract_words e.name).foldl addWord occ) []

/-- Substring test on character lists: `needle` occurs somewhere in `hay`. -/
def infixOfChars (needle : List Char) : List Char → Bool
  | [] => needle.isEmpty
  | c :: t => needle.isPrefixOf (c :: t) || infixOfChars needle t

/-- Models the Python membership test `needle in hay` on strings. -/
def py_in (needle hay : String) : Bool :=
  infixOfChars needle.data hay.data

/-- The `for key in palette_key` loop of `color_for_road`: return the color
of the first key occurring in the road name, else the default gray. -/
def first_color (rn : String) : List (String × String) → String
  | [] => "#c6c6c6"
  | (k, v) :: rest => if py_in k rn then v else first_color rn rest

/-- The function `color_for_road(road_name, palette_key)` of the source. -/
def color_for_road (road_name : PyVal) (palette_key : List (String × String)) : String :=
  first_color (pyLower (pyStr road_name)) palette_key

/-- Models Python `int(255 * q)` for an exact rational channel value `q`:
multiply by 255 and truncate toward zero.  Stated on the numerator and
denominator so that it evaluates by kernel reduction. -/
def pyInt255 (q : ℚ) : Int :=
  if 0 ≤ q then ((255 * q.num.toNat / q.den : Nat) : Int)
  else -((255 * (-q).num.toNat / q.den : Nat) : Int)

/-- Models the Python format `'%x'`: lowercase hexadecimal digits of a
natural number. -/
def hexStr (n : Nat) : String :=
  String.mk (Nat.toDigits 16 n)

/-- Models the Python format `'%02x'` on an integer: hexadecimal,
zero-padded to width two, with a leading minus sign for negatives. -/
def fmt02x (n : Int) : String :=
  if n < 0 then "-" ++ hexStr n.natAbs
  else if (hexStr n.natAbs).length < 2 then "0" ++ hexStr n.natAbs
  else hexStr n.natAbs

/-- One generated color, taken from `(0, 1)`-ranged channels to the
`'#%02x%02x%02x'` hex string of `palette_generator`, each channel scaled
by 255 and truncated to an integer. -/
def hexColor (c : ℚ × ℚ × ℚ) : String :=
  "#" ++ fmt02x (pyInt255 c.1) ++ fmt02x (pyInt255 c.2.1) ++ fmt02x (pyInt255 c.2.2)

/-- The `hex_palette` list of `palette_generator`, in color generation order. -/
def hexPalette (colors : List (ℚ × ℚ × ℚ)) : List String :=
  colors.map hexColor

/-- The key-reordering loop of `palette_generator`, verbatim:
`middle_index = len(items) // 2`; for `i in range(middle_index)` append
`item_keys[i]` and `item_keys[middle_index + i]`; finally append
`item_keys[-1]` when the length is odd. -/
def interleaveKeys (item_keys : List String) : List String :=
  let mid := item_keys.length / 2
  let keys := (List.range mid).foldl
    (fun ks i => ks ++ [item_keys.getD i "", item_keys.getD (mid + i) ""]) []
  if item_keys.length % 2 = 1 then keys ++ [(item_keys.getLast?).getD ""] else keys

/-- One Python `dict` insertion: an existing key has its value replaced in
place, a fresh key is appended at the end. -/
def dictInsert {β : Type} (d : List (String × β)) (kv : String × β) : List (String × β) :=
  if (d.map Prod.fst).contains kv.1 then
    d.map (fun p => if p.1 = kv.1 then (p.1, kv.2) else p)
  else d ++ [kv]

/-- Models Python `dict(pairs)`: insertion-ordered key-value list with
duplicate keys collapsed (first position, last value). -/
def pyDict {β : Type} (l : List (String × β)) : List (String × β) :=
  l.foldl dictInsert []

/-- The function `palette_generator(items)` of the source.  `items` is the
top-words dict (an insertion-ordered association list); the external
`sns.husl_palette` collaborator is the oracle `husl`, called on
`len(items)`.  The interleaved key list is zipped against the hex palette
in generation order and turned into a dict. -/
def palette_generator (husl : Nat → List (ℚ × ℚ × ℚ)) (items : List (String × Nat)) :
    List (String × String) :=
  pyDict ((interleaveKeys (items.map Prod.fst)).zip (hexPalette (husl items.length)))

/-- Stable descending insertion by occurrence count: the new entry goes
before the first entry whose count is not larger, so entries with equal
counts keep their original relative order. -/
def insertDesc (x : String × Nat) : List (String × Nat) → List (String × Nat)
  | [] => [x]
  | y :: ys => if y.2 ≤ x.2 then x :: y :: ys else y :: insertDesc x ys

/-- Stable sort by occurrence count, descending.  Together with `take k`
this models Python `Counter(...).most_common(k)`, which is documented and
implemented as a stable descending sort on counts truncated to `k`. -/
def sortCountDesc : List (String × Nat) → List (String × Nat)
  | [] => []
  | x :: xs => insertDesc x (sortCountDesc xs)

/-- Models `Counter(occurrences).most_common(key_size)` on the
insertion-ordered occurrence list. -/
def mostCommon (k : Nat) (occ : List (String × Nat)) : List (String × Nat) :=
  (sortCountDesc occ).take k

/-- The retry loop of `get_data(place, which_result, network_type)`.  The
external `ox.graph_from_place` call is the oracle `fetch`, indexed by the
`which_result` argument; `none` models the `TypeError`/`KeyError` raised
for an ambiguous or non-polygon geometry result.  On such a failure the
loop raises when `which_result > 9` and otherwise increments
`which_result` and retries. -/
def get_data {α : Type} (fetch : Nat → Option α) (which_result : Nat) : Except Unit α :=
  match fetch which_result with
  | some g => .ok g
  | Option.none =>
    if h : which_result > 9 then .error ()
    else get_data fetch (which_result + 1)
termination_by 10 - which_result
decreasing_by omega

/-- Modelled from the spec words of the retry policy, for comparison with
`get_data`: "increments `which_result` and retries, up to index 9;
exceeding 9 surfaces a fatal error" — retried indices never exceed 9, so a
failure at index 9 (or later) is already fatal. -/
def get_data_claim {α : Type} (fetch : Nat → Option α) (which_result : Nat) : Except Unit α :=
  match fetch which_result with
  | some g => .ok g
  | Option.none =>
    if h : which_result ≥ 9 then .error ()
    else get_data_claim fetch (which_result + 1)
termination_by 9 - which_result
decreasing_by omega

/-- The function `generate_image` of the source, on the place-based
retrieval path, reduced to the data it computes: the external renderer and
the file writes consume `palette_key` and `edge_colors` and are performed
only when graph retrieval succeeded, because the `get_data` exception
propagates.  Returns the top dict, the raw occurrence mapping, the palette
dict and the per-edge color list. -/
def generate_image (husl : Nat → List (ℚ × ℚ × ℚ)) (fetch : Nat → Option Graph)
    (which_result key_size : Nat) :
    Except Unit (List (String × Nat) × List (String × Nat) × List (String × String) × List String) :=
  match get_data fetch which_result with
  | .error e => .error e
  | .ok graph =>
    let popular_words := find_common_words graph.edges
    let top := pyDict (mostCommon key_size popular_words)
    let palette_key := palette_generator husl top
    let edge_colors := graph.edges.map (fun e => color_for_road e.name palette_key)
    .ok (top, popular_words, palette_key, edge_colors)

/-- Alternate one element of `xs` with one of `ys` position by position;
when one list runs out the rest of the other is appended. -/
def zipAll {α : Type} : List α → List α → List α
  | [], ys => ys
  | x :: xs, [] => x :: xs
  | x :: xs, y :: ys => x :: y :: zipAll xs ys

/-- Modelled from the claim words for the interleave, for comparison with
`interleaveKeys`: split the word list at its midpoint into a first half
and a second half where the FIRST half is larger by one when the length is
odd, then alternate one word from the first half and one from the second,
appending the leftover word. -/
def interleave_claim (l : List String) : List String :=
  zipAll (l.take ((l.length + 1) / 2)) (l.drop ((l.length + 1) / 2))

/-! ### Character-level lemmas -/

theorem char_toNat_ofNat_valid {n : Nat} (h : n.isValidChar) : (Char.ofNat n).toNat = n := by
  rw [Char.ofNat, dif_pos h]
  rfl

theorem uint32_le_iff (a b : UInt32) : (a ≤ b) ↔ a.toNat ≤ b.toNat := by
  simp [UInt32.le_def, BitVec.le_def, UInt32.toNat]

theorem char_isDigit_iff (c : Char) : c.isDigit = true ↔ 48 ≤ c.toNat ∧ c.toNat ≤ 57 := by
  simp only [Char.isDigit, Bool.and_eq_true, decide_eq_true_eq, ge_iff_le]
  constructor
  · rintro ⟨h1, h2⟩
    exact ⟨(uint32_le_iff _ _).mp h1, (uint32_le_iff _ _).mp h2⟩
  · rintro ⟨h1, h2⟩
    exact ⟨(uint32_le_iff _ _).mpr h1, (uint32_le_iff _ _).mpr h2⟩

theorem char_toLower_eq (c : Char) :
    Char.toLower c = if 65 ≤ c.toNat ∧ c.toNat ≤ 90 then Char.ofNat (c.toNat + 32) else c := by
  rfl

theorem char_toNat_toLower (c : Char) :
    (Char.toLower c).toNat = if 65 ≤ c.toNat ∧ c.toNat ≤ 90 then c.toNat + 32 else c.toNat := by
  rw [char_toLower_eq]
  split
  · next h => exact char_toNat_ofNat_valid (Or.inl (by omega))
  · rfl

theorem char_toLower_idem (c : Char) : Char.toLower (Char.toLower c) = Char.toLower c := by
  rcases Decidable.em (65 ≤ c.toNat ∧ c.toNat ≤ 90) with h | h
  · rw [char_toLower_eq (Char.toLower c), char_toNat_toLower, if_pos h, if_neg (by omega)]
  · rw [char_toLower_eq (Char.toLower c), char_toNat_toLower, if_neg h, if_neg h]

theorem char_isDigit_toLower (c : Char) : (Char.toLower c).isDigit = c.isDigit := by
  have h1 := char_isDigit_iff (Char.toLower c)
  have h2 := char_isDigit_iff c
  have h3 := char_toNat_toLower c
  rcases Decidable.em (65 ≤ c.toNat ∧ c.toNat ≤ 90) with h | h
  · rw [if_pos h] at h3
    have ha : (Char.toLower c).isDigit = false := by
      rcases Bool.eq_false_or_eq_true (Char.toLower c).isDigit with hb | hb
      · have := h1.mp hb
        omega
      · exact hb
    have hc2 : c.isDigit = false := by
      rcases Bool.eq_false_or_eq_true c.isDigit with hb | hb
      · have := h2.mp hb
        omega
      · exact hb
    rw [ha, hc2]
  · rw [if_neg h] at h3
    rcases Bool.eq_false_or_eq_true c.isDigit with hb | hb
    · rw [hb]
      have := h2.mp hb
      exact h1.mpr (by omega)
    · rw [hb]
      rcases Bool.eq_false_or_eq_true (Char.toLower c).isDigit with hb2 | hb2
      · have hr := h1.mp hb2
        have hcd : c.isDigit = true := h2.mpr (by omega)
        rw [hb] at hcd
        cases hcd
      · exact hb2

/-! ### String-level lemmas about lowering, digits and tokens -/

theorem pyLower_idem (s : String) : pyLower (pyLower s) = pyLower s := by
  simp only [pyLower, List.map_map]
  congr 1
  exact List.map_congr_left (fun c _ => char_toLower_idem c)

theorem pyIsDigit_pyLower (s : String) : pyIsDigit (pyLower s) = pyIsDigit s := by
  show (!(s.data.map Char.toLower).isEmpty && (s.data.map Char.toLower).all Char.isDigit)
      = (!s.data.isEmpty && s.data.all Char.isDigit)
  have h1 : (s.data.map Char.toLower).isEmpty = s.data.isEmpty := by
    cases s.data <;> rfl
  have h2 : (s.data.map Char.toLower).all Char.isDigit = s.data.all Char.isDigit := by
    induction s.data with
    | nil => rfl
    | cons c t ih => simp [List.all_cons, char_isDigit_toLower c, ih]
  rw [h1, h2]

theorem stop_words_lower_fixed : ∀ sw ∈ STOP_WORDS, pyLower sw = sw := by decide

theorem contains_iff_mem (l : List String) (a : String) : l.contains a = true ↔ a ∈ l := by
  simp [List.contains_iff_exists_mem_beq, beq_iff_eq]

/-- Every token emitted by the extractor is lowercase-invariant, outside
the stop-word list, not all digits, and longer than one character. -/
theorem extract_words_props {v : PyVal} {w : String} (hw : w ∈ extract_words v) :
    pyLower w = w ∧ w ∉ STOP_WORDS ∧ pyIsDigit w = false ∧ 1 < w.length := by
  have hw' : ∃ t, t ∈ (pySplit (pyStr v)).filter validWord ∧ pyLower t = w := by
    rcases v with v | _ | n | _
    · simpa [extract_words] using hw
    · simp [extract_words] at hw
    · simpa [extract_words] using hw
    · simpa [extract_words] using hw
  obtain ⟨t, ht, rfl⟩ := hw'
  have hv : validWord t = true := (List.mem_filter.mp ht).2
  simp only [validWord, Bool.and_eq_true, Bool.not_eq_true', decide_eq_true_eq] at hv
  obtain ⟨⟨hsw, hlen⟩, hdig⟩ := hv
  refine ⟨pyLower_idem t, ?_, ?_, ?_⟩
  · intro hmem
    rw [(contains_iff_mem _ _).mpr hmem] at hsw
    cases hsw
  · rw [pyIsDigit_pyLower]
    exact hdig
  · have hlenEq : (pyLower t).length = t.length := by
      show (t.data.map Char.toLower).length = t.data.length
      simp
    omega

/-! ### Lemmas about the occurrence fold -/

/-- The invariant transported by one `addWord` step. -/
theorem addWord_props (P : String → Prop) (occ : List (String × Nat)) (w : String)
    (hocc : ∀ p ∈ occ, P p.1 ∧ 1 ≤ p.2) (hw : P w) :
    ∀ p ∈ addWord occ w, P p.1 ∧ 1 ≤ p.2 := by
  induction occ with
  | nil =>
    intro p hp
    rw [addWord] at hp
    rcases List.mem_singleton.mp hp with rfl
    exact ⟨hw, Nat.le_refl 1⟩
  | cons y ys ih =>
    intro p hp
    rw [addWord] at hp
    rcases y with ⟨x, c⟩
    by_cases hx : x = w
    · rw [if_pos hx] at hp
      rcases List.mem_cons.mp hp with rfl | hp
      · exact ⟨(hocc (x, c) (List.mem_cons_self _ _)).1, Nat.le_add_left 1 c⟩
      · exact hocc p (List.mem_cons_of_mem _ hp)
    · rw [if_neg hx] at hp
      rcases List.mem_cons.mp hp with rfl | hp
      · exact hocc (x, c) (List.mem_cons_self _ _)
      · exact ih (fun q hq => hocc q (List.mem_cons_of_mem _ hq)) p hp

/-- The invariant transported by a fold of `addWord` over a token list. -/
theorem foldl_addWord_props (P : String → Prop) (ws : List String) (occ : List (String × Nat))
    (hocc : ∀ p ∈ occ, P p.1 ∧ 1 ≤ p.2) (hws : ∀ w ∈ ws, P w) :
    ∀ p ∈ ws.foldl addWord occ, P p.1 ∧ 1 ≤ p.2 := by
  induction ws generalizing occ with
  | nil => exact hocc
  | cons w ws ih =>
    intro p hp
    rw [List.foldl_cons] at hp
    exact ih (addWord occ w)
      (addWord_props P occ w hocc (hws w (List.mem_cons_self _ _)))
      (fun x hx => hws x (List.mem_cons_of_mem _ hx)) p hp

/-- The invariant holding of every entry of `find_common_words`. -/
theorem find_common_words_props (P : String → Prop) (edges : List Edge)
    (hP : ∀ e ∈ edges, ∀ w ∈ extract_words e.name, P w) :
    ∀ p ∈ find_common_words edges, P p.1 ∧ 1 ≤ p.2 := by
  rw [find_common_words]
  suffices h : ∀ (es : List Edge) (occ : List (String × Nat)),
      (∀ p ∈ occ, P p.1 ∧ 1 ≤ p.2) → (∀ e ∈ es, ∀ w ∈ extract_words e.name, P w) →
      ∀ p ∈ es.foldl (fun occ e => (extract_words e.name).foldl addWord occ) occ,
        P p.1 ∧ 1 ≤ p.2 by
    exact h edges [] (by intro p hp; cases hp) hP
  intro es
  induction es with
  | nil => intro occ hocc _; exact hocc
  | cons e es ih =>
    intro occ hocc hes p hp
    rw [List.foldl_cons] at hp
    exact ih ((extract_words e.name).foldl addWord occ)
      (foldl_addWord_props P _ occ hocc (hes e (List.mem_cons_self _ _)))
      (fun x hx => hes x (List.mem_cons_of_mem _ hx)) p hp

/-- Edges whose name is a float contribute nothing: filtering them away
leaves the occurrence mapping unchanged. -/
theorem find_common_words_filter_float (edges : List Edge) :
    find_common_words edges
      = find_common_words (edges.filter (fun e => !(isFloat e.name))) := by
  rw [find_common_words, find_common_words]
  suffices h : ∀ (es : List Edge) (occ : List (String × Nat)),
      es.foldl (fun occ e => (extract_words e.name).foldl addWord occ) occ
        = (es.filter (fun e => !(isFloat e.name))).foldl
            (fun occ e => (extract_words e.name).foldl addWord occ) occ by
    exact h edges []
  intro es
  induction es with
  | nil => intro occ; rfl
  | cons e es ih =>
    intro occ
    rcases he : e.name with v | _ | n | _
    · rw [List.foldl_cons, List.filter_cons, if_pos (by simp [isFloat, he]), List.foldl_cons, ih]
    · rw [List.foldl_cons, List.filter_cons, if_neg (by simp [isFloat, he]), ih]
      rw [he]
      rfl
    · rw [List.foldl_cons, List.filter_cons, if_pos (by simp [isFloat, he]), List.foldl_cons, ih]
    · rw [List.foldl_cons, List.filter_cons, if_pos (by simp [isFloat, he]), List.foldl_cons, ih]

/-- Counting a value in a mapped filter, entirely inside the original list. -/
theorem count_map_filter (l : List String) (w : String) :
    (((l.filter validWord).map pyLower).count w)
      = (l.filter (fun t => validWord t && (pyLower t == w))).length := by
  induction l with
  | nil => rfl
  | cons t ts ih =>
    rw [List.filter_cons, List.filter_cons]
    by_cases hv : validWord t = true
    · rw [if_pos (by simp [hv]), List.map_cons]
      by_cases hw : pyLower t = w
      · rw [if_pos (by simp [hv, hw]), List.count_cons, List.length_cons, ih]
        simp [hw]
      · rw [if_neg (by simp [hv, hw]), List.count_cons, ih]
        simp [hw]
    · rw [if_neg (by simp [hv]), if_neg (by simp [hv]), ih]

/-! ### Lemmas about the stable descending sort behind `most_common` -/

theorem insertDesc_perm (x : String × Nat) (s : List (String × Nat)) :
    (insertDesc x s).Perm (x :: s) := by
  induction s with
  | nil => exact List.Perm.refl _
  | cons y ys ih =>
    rw [insertDesc]
    by_cases h : y.2 ≤ x.2
    · rw [if_pos h]
    · rw [if_neg h]
      exact (List.Perm.cons y ih).trans (List.Perm.swap x y ys)

theorem sortCountDesc_perm (l : List (String × Nat)) : (sortCountDesc l).Perm l := by
  induction l with
  | nil => exact List.Perm.refl _
  | cons x xs ih =>
    rw [sortCountDesc]
    exact (insertDesc_perm x (sortCountDesc xs)).trans (List.Perm.cons x ih)

theorem insertDesc_sorted {x : String × Nat} {s : List (String × Nat)}
    (hs : s.Pairwise (fun a b => b.2 ≤ a.2)) :
    (insertDesc x s).Pairwise (fun a b => b.2 ≤ a.2) := by
  induction s with
  | nil => exact List.pairwise_singleton _ x
  | cons y ys ih =>
    rw [insertDesc]
    rcases List.pairwise_cons.mp hs with ⟨hy, hys⟩
    by_cases h : y.2 ≤ x.2
    · rw [if_pos h]
      refine List.pairwise_cons.mpr ⟨?_, hs⟩
      intro z hz
      rcases List.mem_cons.mp hz with rfl | hz
      · exact h
      · exact Nat.le_trans (hy z hz) h
    · rw [if_neg h]
      refine List.pairwise_cons.mpr ⟨?_, ih hys⟩
      intro z hz
      rcases List.mem_cons.mp ((insertDesc_perm x ys).mem_iff.mp hz) with rfl | hz2
      · exact Nat.le_of_lt (Nat.lt_of_not_le h)
      · exact hy z hz2

theorem sortCountDesc_sorted (l : List (String × Nat)) :
    (sortCountDesc l).Pairwise (fun a b => b.2 ≤ a.2) := by
  induction l with
  | nil => exact List.Pairwise.nil
  | cons x xs ih =>
    rw [sortCountDesc]
    exact insertDesc_sorted ih

theorem insertDesc_filter (x : String × Nat) (s : List (String × Nat)) (c : Nat) :
    (insertDesc x s).filter (fun p => p.2 == c)
      = if x.2 = c then x :: s.filter (fun p => p.2 == c)
        else s.filter (fun p => p.2 == c) := by
  induction s with
  | nil =>
    by_cases hx : x.2 = c <;> simp [insertDesc, List.filter_cons, hx]
  | cons y ys ih =>
    rw [insertDesc]
    by_cases h : y.2 ≤ x.2
    · rw [if_pos h]
      by_cases hx : x.2 = c <;> simp [List.filter_cons, hx]
    · rw [if_neg h]
      by_cases hy : y.2 = c
      · have hx : ¬ x.2 = c := by omega
        simp [List.filter_cons, hy, hx, ih]
      · by_cases hx : x.2 = c <;> simp [List.filter_cons, hy, hx, ih]

theorem sortCountDesc_filter (l : List (String × Nat)) (c : Nat) :
    (sortCountDesc l).filter (fun p => p.2 == c) = l.filter (fun p => p.2 == c) := by
  induction l with
  | nil => rfl
  | cons x xs ih =>
    rw [sortCountDesc, insertDesc_filter]
    by_cases hx : x.2 = c <;> simp [List.filter_cons, hx, ih]

/-! ### Lemmas about the interleaving of palette keys -/

theorem foldl_append_eq {α : Type} (f : Nat → List α) (r : List Nat) (init : List α) :
    r.foldl (fun ks i => ks ++ f i) init = init ++ r.flatMap f := by
  induction r generalizing init with
  | nil => simp
  | cons i r ih => simp [ih, List.append_assoc]

theorem range_flatMap_zipAll (A B : List String) (hAB : A.length ≤ B.length) :
    (List.range A.length).flatMap (fun i => [A.getD i "", B.getD i ""]) ++ B.drop A.length
      = zipAll A B := by
  induction A generalizing B with
  | nil => simp [zipAll]
  | cons a as ih =>
    rcases B with _ | ⟨b, bs⟩
    · simp at hAB
    · rw [List.length_cons, List.range_succ_eq_map]
      rw [List.flatMap_cons, List.flatMap_map]
      have hgd : ∀ i : Nat, (a :: as).getD (Nat.succ i) "" = as.getD i "" := by
        intro i
        rfl
      have hgd2 : ∀ i : Nat, (b :: bs).getD (Nat.succ i) "" = bs.getD i "" := by
        intro i
        rfl
      have hcongr : (List.range as.length).flatMap
            (fun i => [(a :: as).getD (Nat.succ i) "", (b :: bs).getD (Nat.succ i) ""])
          = (List.range as.length).flatMap (fun i => [as.getD i "", bs.getD i ""]) := by
        apply List.flatMap_congr
        intro i _
        rw [hgd i, hgd2 i]
      rw [hcongr]
      have hd : (b :: bs).drop (as.length + 1) = bs.drop as.length := by
        rfl
      rw [hd]
      show a :: b :: ((List.range as.length).flatMap (fun i => [as.getD i "", bs.getD i ""])
          ++ bs.drop as.length) = zipAll (a :: as) (b :: bs)
      rw [ih bs (by simpa using hAB), zipAll]

theorem drop_pred_eq_getD {α : Type} (d : α) (l : List α) (hl : l ≠ []) :
    l.drop (l.length - 1) = [l.getD (l.length - 1) d] := by
  induction l with
  | nil => exact absurd rfl hl
  | cons x xs ih =>
    rcases xs with _ | ⟨y, ys⟩
    · rfl
    · have h1 : (x :: y :: ys).length - 1 = (y :: ys).length - 1 + 1 := by
        simp
      rw [h1, List.drop_succ_cons]
      have h2 : (x :: y :: ys).getD ((y :: ys).length - 1 + 1) d
          = (y :: ys).getD ((y :: ys).length - 1) d := by
        rfl
      rw [h2]
      exact ih (by simp)

/-- The index loop of `palette_generator` is the alternation of the first
half (of length `n / 2`) with the second half (of length `n - n / 2`). -/
theorem interleaveKeys_eq_zipAll (l : List String) :
    interleaveKeys l = zipAll (l.take (l.length / 2)) (l.drop (l.length / 2)) := by
  rw [interleaveKeys]
  have hlen : (l.take (l.length / 2)).length = l.length / 2 := by
    simp [Nat.div_le_self]
  have hAB : (l.take (l.length / 2)).length ≤ (l.drop (l.length / 2)).length := by
    simp
    omega
  have hbridge := range_flatMap_zipAll (l.take (l.length / 2)) (l.drop (l.length / 2)) hAB
  rw [hlen] at hbridge
  have hgetA : ∀ i, i < l.length / 2 → (l.take (l.length / 2)).getD i "" = l.getD i "" := by
    intro i hi
    rw [List.getD_eq_getElem?_getD, List.getD_eq_getElem?_getD, List.getElem?_take, if_pos hi]
  have hgetB : ∀ i, (l.drop (l.length / 2)).getD i "" = l.getD (l.length / 2 + i) "" := by
    intro i
    rw [List.getD_eq_getElem?_getD, List.getD_eq_getElem?_getD, List.getElem?_drop]
  have hflat : (List.range (l.length / 2)).flatMap
        (fun i => [(l.take (l.length / 2)).getD i "", (l.drop (l.length / 2)).getD i ""])
      = (List.range (l.length / 2)).flatMap (fun i => [l.getD i "", l.getD (l.length / 2 + i) ""]) := by
    apply List.flatMap_congr
    intro i hi
    rw [hgetA i (List.mem_range.mp hi), hgetB i]
  rw [hflat] at hbridge
  rw [foldl_append_eq, List.nil_append]
  have hdd : (l.drop (l.length / 2)).drop (l.length / 2) = l.drop (l.length / 2 + l.length / 2) := by
    rw [List.drop_drop]
  rcases Nat.even_or_odd l.length with he | ho
  · have hmod : l.length % 2 = 0 := by
      rcases he with ⟨m, hm⟩
      omega
    rw [if_neg (by omega)]
    have h2 : l.length / 2 + l.length / 2 = l.length := by omega
    rw [hdd, h2, List.drop_length] at hbridge
    rw [← hbridge, List.append_nil]
  · have hmod : l.length % 2 = 1 := by
      rcases ho with ⟨m, hm⟩
      omega
    rw [if_pos hmod]
    have hnil : l ≠ [] := by
      intro hl
      rw [hl] at hmod
      simp at hmod
    have h2 : l.length / 2 + l.length / 2 = l.length - 1 := by omega
    rw [hdd, h2, drop_pred_eq_getD "" l hnil] at hbridge
    have hlast : l.getLast?.getD "" = l.getD (l.length - 1) "" := by
      rw [List.getLast?_eq_getElem?, List.getD_eq_getElem?_getD]
    rw [← hbridge, hlast]

theorem zipAll_perm {α : Type} (A B : List α) : (zipAll A B).Perm (A ++ B) := by
  induction A generalizing B with
  | nil => simp [zipAll]
  | cons a as ih =>
    rcases B with _ | ⟨b, bs⟩
    · simp [zipAll]
    · rw [zipAll, List.cons_append]
      refine List.Perm.cons a ?_
      refine ((ih bs).cons b).trans ?_
      exact (List.perm_middle).symm

/-- The interleaved key order is a permutation of the original key order. -/
theorem interleaveKeys_perm (l : List String) : (interleaveKeys l).Perm l := by
  rw [interleaveKeys_eq_zipAll]
  refine (zipAll_perm _ _).trans ?_
  rw [List.take_append_drop]

/-! ### Lemmas about `pyDict` -/

theorem dictInsert_of_not_mem {β : Type} (d : List (String × β)) (kv : String × β)
    (h : kv.1 ∉ d.map Prod.fst) : dictInsert d kv = d ++ [kv] := by
  rw [dictInsert, if_neg]
  intro hc
  exact h ((contains_iff_mem _ _).mp hc)

theorem pyDict_eq_self {β : Type} (l : List (String × β)) (h : (l.map Prod.fst).Nodup) :
    pyDict l = l := by
  rw [pyDict]
  suffices haux : ∀ (r acc : List (String × β)),
      ((acc ++ r).map Prod.fst).Nodup → r.foldl dictInsert acc = acc ++ r by
    have := haux l []
    simp at this
    exact this h
  intro r
  induction r with
  | nil => intro acc _; simp
  | cons kv rest ih =>
    intro acc hnd
    rw [List.foldl_cons]
    have hk : kv.1 ∉ acc.map Prod.fst := by
      intro hmem
      have : ¬ (Prod.fst kv) ∈ ((kv :: rest).map Prod.fst) := by
        rw [List.map_append] at hnd
        have := (List.nodup_append.mp hnd).2.2
        intro hc
        exact this hmem hc
      exact this (by simp)
    rw [dictInsert_of_not_mem acc kv hk]
    have := ih (acc ++ [kv]) (by simpa using hnd)
    rw [this, List.append_assoc]
    rfl

theorem dictInsert_values_subset {β : Type} (d : List (String × β)) (kv : String × β) :
    ∀ v ∈ (dictInsert d kv).map Prod.snd, v ∈ d.map Prod.snd ∨ v = kv.2 := by
  intro v hv
  rw [dictInsert] at hv
  by_cases hc : (d.map Prod.fst).contains kv.1
  · rw [if_pos hc] at hv
    rw [List.map_map] at hv
    rcases List.mem_map.mp hv with ⟨p, hp, hpv⟩
    by_cases hpk : p.1 = kv.1
    · right
      simp only [Function.comp, if_pos hpk] at hpv
      exact hpv.symm
    · left
      simp only [Function.comp, if_neg hpk] at hpv
      rw [← hpv]
      exact List.mem_map_of_mem Prod.snd hp
  · rw [if_neg hc] at hv
    rw [List.map_append] at hv
    rcases List.mem_append.mp hv with hv | hv
    · left
      exact hv
    · right
      simpa using hv

theorem pyDict_values_subset {β : Type} (l : List (String × β)) :
    ∀ v ∈ (pyDict l).map Prod.snd, v ∈ l.map Prod.snd := by
  rw [pyDict]
  suffices haux : ∀ (r acc : List (String × β)), ∀ v ∈ (r.foldl dictInsert acc).map Prod.snd,
      v ∈ acc.map Prod.snd ∨ v ∈ r.map Prod.snd by
    intro v hv
    rcases haux l [] v hv with hv | hv
    · cases hv
    · exact hv
  intro r
  induction r with
  | nil =>
    intro acc v hv
    exact Or.inl hv
  | cons kv rest ih =>
    intro acc v hv
    rw [List.foldl_cons] at hv
    rcases ih (dictInsert acc kv) v hv with hv2 | hv2
    · rcases dictInsert_values_subset acc kv v hv2 with hv3 | hv3
      · exact Or.inl hv3
      · right
        rw [hv3]
        simp
    · right
      exact List.mem_cons_of_mem _ hv2

/-! ### Lemmas about channel scaling and hex formatting -/

theorem pyInt255_bounds {q : ℚ} (h0 : 0 ≤ q) (h1 : q ≤ 1) :
    0 ≤ pyInt255 q ∧ pyInt255 q ≤ 255 := by
  constructor
  · rw [pyInt255, if_pos h0]
    exact Int.natCast_nonneg _
  · rw [pyInt255, if_pos h0]
    have hd : 0 < q.den := q.pos
    have hnum : q.num ≤ (q.den : Int) := by
      have := Rat.le_def.mp h1
      simpa using this
    have hq : 255 * q.num.toNat / q.den ≤ 255 := by
      have h2 : 255 * q.num.toNat ≤ 255 * q.den := by
        have : q.num.toNat ≤ q.den := by omega
        exact Nat.mul_le_mul_left 255 this
      have h3 := Nat.div_le_div_right (c := q.den) h2
      calc 255 * q.num.toNat / q.den ≤ 255 * q.den / q.den := h3
        _ = 255 := Nat.mul_div_cancel 255 hd
    omega

theorem toDigits16_of_lt {n : Nat} (h : n < 16) : Nat.toDigits 16 n = [Nat.digitChar n] := by
  rw [Nat.toDigits, Nat.toDigitsCore]
  simp [Nat.div_eq_of_lt h, Nat.mod_eq_of_lt h]

theorem toDigits16_of_ge {n : Nat} (h16 : 16 ≤ n) (h : n < 256) :
    Nat.toDigits 16 n = [Nat.digitChar (n / 16), Nat.digitChar (n % 16)] := by
  obtain ⟨m, rfl⟩ : ∃ m, n = m + 1 := ⟨n - 1, by omega⟩
  rw [Nat.toDigits, Nat.toDigitsCore]
  have hne : ¬ ((m + 1) / 16 = 0) := by
    intro hh
    omega
  simp only [hne, if_false]
  obtain ⟨k, rfl⟩ : ∃ k, m = k + 1 := ⟨m - 1, by omega⟩
  rw [Nat.toDigitsCore]
  have hz : (k + 1 + 1) / 16 / 16 = 0 := by omega
  have hlt : (k + 1 + 1) / 16 < 16 := by omega
  simp [hz, Nat.mod_eq_of_lt hlt]

theorem hexStr_length {n : Nat} (h : n < 256) :
    (hexStr n).length = if n < 16 then 1 else 2 := by
  rcases Decidable.em (n < 16) with h16 | h16
  · rw [if_pos h16, hexStr, toDigits16_of_lt h16]
    rfl
  · rw [if_neg h16, hexStr, toDigits16_of_ge (by omega) h]
    rfl

/-- For a channel value in `[0, 255]` the `'%02x'` format has exactly two
characters. -/
theorem fmt02x_length {n : Int} (h0 : 0 ≤ n) (h1 : n ≤ 255) : (fmt02x n).length = 2 := by
  rw [fmt02x, if_neg (by omega)]
  have habs : (n.natAbs : Nat) < 256 := by omega
  have hlen := hexStr_length habs
  rcases Decidable.em (n.natAbs < 16) with h16 | h16
  · rw [if_pos h16] at hlen
    rw [if_pos (by omega), String.length_append, hlen]
    rfl
  · rw [if_neg h16] at hlen
    rw [if_neg (by omega), hlen]

/-- Every hex color string is `#` followed by three two-character channel
fields, seven characters in all, with every channel in `[0, 255]`, when the
channels lie in `[0, 1]`. -/
theorem hexColor_props {c : ℚ × ℚ × ℚ}
    (h : 0 ≤ c.1 ∧ c.1 ≤ 1 ∧ 0 ≤ c.2.1 ∧ c.2.1 ≤ 1 ∧ 0 ≤ c.2.2 ∧ c.2.2 ≤ 1) :
    (hexColor c).length = 7 ∧
    hexColor c = "#" ++ fmt02x (pyInt255 c.1) ++ fmt02x (pyInt255 c.2.1) ++ fmt02x (pyInt255 c.2.2) ∧
    (0 ≤ pyInt255 c.1 ∧ pyInt255 c.1 ≤ 255) ∧
    (0 ≤ pyInt255 c.2.1 ∧ pyInt255 c.2.1 ≤ 255) ∧
    (0 ≤ pyInt255 c.2.2 ∧ pyInt255 c.2.2 ≤ 255) := by
  obtain ⟨h1, h2, h3, h4, h5, h6⟩ := h
  have b1 := pyInt255_bounds h1 h2
  have b2 := pyInt255_bounds h3 h4
  have b3 := pyInt255_bounds h5 h6
  refine ⟨?_, rfl, b1, b2, b3⟩
  rw [hexColor, String.length_append, String.length_append, String.length_append]
  rw [fmt02x_length b1.1 b1.2, fmt02x_length b2.1 b2.2, fmt02x_length b3.1 b3.2]
  rfl

/-! ### Lemmas about the retry loop -/

/-- The retry loop fails exactly when every index from the start through
`max start 10` fails: a failure at an index of at most 9 is always retried
at the next index, so index 10 is still attempted. -/
theorem get_data_error_iff {α : Type} (fetch : Nat → Option α) (w : Nat) :
    get_data fetch w = .error () ↔ ∀ i, w ≤ i → i ≤ max w 10 → fetch i = Option.none := by
  rcases le_or_lt w 10 with hw | hw
  · -- induction on the remaining budget
    suffices haux : ∀ (d : Nat) (w : Nat), w ≤ 10 → 10 - w ≤ d →
        (get_data fetch w = .error () ↔ ∀ i, w ≤ i → i ≤ 10 → fetch i = Option.none) by
      have hmax : max w 10 = 10 := by omega
      rw [hmax]
      exact haux (10 - w) w hw (Nat.le_refl _)
    intro d
    induction d with
    | zero =>
      intro w hw10 hd
      have hw10' : w = 10 := by omega
      subst hw10'
      rw [get_data]
      rcases hf : fetch 10 with _ | g
      · simp only []
        constructor
        · intro _ i hi1 hi2
          have : i = 10 := by omega
          rw [this]
          exact hf
        · intro _
          rw [dif_pos (by omega)]
      · simp only []
        constructor
        · intro hc
          cases hc
        · intro hall
          have := hall 10 (Nat.le_refl _) (Nat.le_refl _)
          rw [hf] at this
          cases this
    | succ d ih =>
      intro w hw10 hd
      rcases Nat.eq_or_lt_of_le hw10 with hw10' | hw10'
      · subst hw10'
        exact ih 10 (Nat.le_refl _) (by omega)
      · rw [get_data]
        rcases hf : fetch w with _ | g
        · simp only []
          rw [dif_neg (by omega)]
          rw [ih (w + 1) (by omega) (by omega)]
          constructor
          · intro hall i hi1 hi2
            rcases Nat.eq_or_lt_of_le hi1 with rfl | hi1'
            · exact hf
            · exact hall i hi1' hi2
          · intro hall i hi1 hi2
            exact hall i (by omega) hi2
        · simp only []
          constructor
          · intro hc
            cases hc
          · intro hall
            have := hall w (Nat.le_refl _) (by omega)
            rw [hf] at this
            cases this
  · -- starting beyond the budget: one attempt only
    have hmax : max w 10 = w := by omega
    rw [hmax, get_data]
    rcases hf : fetch w with _ | g
    · rw [dif_pos (by omega)]
      constructor
      · intro _ i hi1 hi2
        have : i = w := by omega
        rw [this]
        exact hf
      · intro _
        rfl
    · constructor
      · intro hc
        cases hc
      · intro hall
        have := hall w (Nat.le_refl _) (Nat.le_refl _)
        rw [hf] at this
        cases this

/-- `generate_image` fails exactly when `get_data` fails, and then produces
none of its outputs. -/
theorem generate_image_error_iff (husl : Nat → List (ℚ × ℚ × ℚ)) (fetch : Nat → Option Graph)
    (w k : Nat) :
    generate_image husl fetch w k = .error () ↔ get_data fetch w = .error () := by
  rw [generate_image]
  rcases hf : get_data fetch w with e | g
  · rcases e
    constructor
    · intro _
      rfl
    · intro _
      rfl
  · constructor
    · intro hc
      cases hc
    · intro hc
      cases hc

/-! ### Claim theorems -/

/-- C1, counterexample: at the three-word top list the code splits at the
floor midpoint (second half larger), producing key order `a, b, c`, while
the claim's split (first half larger by one) produces `a, c, b`; with three
distinct generated colors the two word-to-color mappings disagree on the
word `b`. -/
theorem c1_counterexample :
    interleaveKeys ["a", "b", "c"] = ["a", "b", "c"] ∧
    interleave_claim ["a", "b", "c"] = ["a", "c", "b"] ∧
    palette_generator (fun _ => [(0, 0, 0), (1, 0, 0), (0, 1, 0)]) [("a", 3), ("b", 2), ("c", 1)]
      = [("a", "#000000"), ("b", "#ff0000"), ("c", "#00ff00")] ∧
    pyDict ((interleave_claim ["a", "b", "c"]).zip
        (hexPalette [(0, 0, 0), (1, 0, 0), (0, 1, 0)]))
      = [("a", "#000000"), ("c", "#ff0000"), ("b", "#00ff00")] ∧
    ¬ (List.lookup "b" [("a", "#000000"), ("b", "#ff0000"), ("c", "#00ff00")]
        = List.lookup "b" [("a", "#000000"), ("c", "#ff0000"), ("b", "#00ff00")]) := by
  refine ⟨by decide, by decide, by decide, by decide, by decide⟩

/-- C1, amended: the word list is split at the floor midpoint, so the halves
are equal for even length and the SECOND half is larger by one for odd
length; the final key order alternates one word of the first half with one
of the second half and ends with the leftover final word; this key order is
zipped against the colors in generation order. -/
theorem c1_amended_interleave (items : List (String × Nat)) (husl : Nat → List (ℚ × ℚ × ℚ)) :
    interleaveKeys (items.map Prod.fst)
      = zipAll ((items.map Prod.fst).take ((items.map Prod.fst).length / 2))
          ((items.map Prod.fst).drop ((items.map Prod.fst).length / 2)) ∧
    palette_generator husl items
      = pyDict ((interleaveKeys (items.map Prod.fst)).zip (hexPalette (husl items.length))) :=
  ⟨interleaveKeys_eq_zipAll _, rfl⟩

/-- C1, witness for the amended theorem at a concrete three-word top list. -/
theorem c1_witness :
    interleaveKeys (([("a", 3), ("b", 2), ("c", 1)] : List (String × Nat)).map Prod.fst)
      = zipAll ((([("a", 3), ("b", 2), ("c", 1)] : List (String × Nat)).map Prod.fst).take
          ((([("a", 3), ("b", 2), ("c", 1)] : List (String × Nat)).map Prod.fst).length / 2))
        ((([("a", 3), ("b", 2), ("c", 1)] : List (String × Nat)).map Prod.fst).drop
          ((([("a", 3), ("b", 2), ("c", 1)] : List (String × Nat)).map Prod.fst).length / 2)) :=
  (c1_amended_interleave [("a", 3), ("b", 2), ("c", 1)] (fun _ => [])).1

/-- C2, counterexample: an integer-valued name is a non-string value, yet it
is not skipped: it is stringified and contributes a token, so the extractor
does not return the empty sequence for every non-string value. -/
theorem c2_counterexample :
    extract_words (PyVal.int (-5)) = ["-5"] ∧
    find_common_words [⟨PyVal.int (-5)⟩] = [("-5", 1)] ∧
    ¬ (extract_words (PyVal.int (-5)) = []) := by
  refine ⟨by decide, by decide, by decide⟩

/-- C2, amended: exactly the float-typed names (the NaN missing-value
sentinel of absent names) yield the empty token sequence, and such edges
contribute nothing to the word counts; other non-string values are
stringified and tokenized. -/
theorem c2_amended (edges : List Edge) :
    extract_words PyVal.nan = [] ∧
    find_common_words edges = find_common_words (edges.filter (fun e => !(isFloat e.name))) :=
  ⟨rfl, find_common_words_filter_float edges⟩

/-- C2, witness for the amended theorem at a concrete edge list with one
NaN name. -/
theorem c2_witness :
    find_common_words [⟨PyVal.nan⟩, ⟨PyVal.s "Elm Way"⟩]
      = find_common_words
          (([⟨PyVal.nan⟩, ⟨PyVal.s "Elm Way"⟩] : List Edge).filter
            (fun e => !(isFloat e.name))) :=
  (c2_amended [⟨PyVal.nan⟩, ⟨PyVal.s "Elm Way"⟩]).2

/-- C3, counterexample: `None` is stringified to `"None"` and lowercased to
`"none"`, and a palette whose key `"one"` is a substring of `"none"`
resolves to that key's color, not to the default gray. -/
theorem c3_counterexample :
    color_for_road PyVal.none [("one", "#112233")] = "#112233" ∧
    ¬ (("#112233" : String) = "#c6c6c6") := by
  refine ⟨by decide, by decide⟩

theorem first_color_default (rn : String) (palette : List (String × String))
    (h : ∀ p ∈ palette, py_in p.1 rn = false) : first_color rn palette = "#c6c6c6" := by
  induction palette with
  | nil => rfl
  | cons p rest ih =>
    rcases p with ⟨k, v⟩
    rw [first_color, if_neg]
    · exact ih (fun q hq => h q (List.mem_cons_of_mem _ hq))
    · rw [h (k, v) (List.mem_cons_self _ _)]
      simp

/-- C3, amended: resolving a `None` road name returns the default gray
`#c6c6c6` for every palette map none of whose keys occurs as a substring of
the string `"none"` (the lowercased form of `str(None)`). -/
theorem c3_amended (palette : List (String × String))
    (h : ∀ p ∈ palette, py_in p.1 "none" = false) :
    color_for_road PyVal.none palette = "#c6c6c6" := by
  rw [color_for_road]
  rw [show pyLower (pyStr PyVal.none) = "none" from by decide]
  exact first_color_default "none" palette h

/-- C3, witness for the amended theorem at a concrete palette. -/
theorem c3_witness :
    (∀ p ∈ ([("street", "#abcdef")] : List (String × String)), py_in p.1 "none" = false) ∧
    color_for_road PyVal.none [("street", "#abcdef")] = "#c6c6c6" :=
  ⟨by decide, c3_amended [("street", "#abcdef")] (by decide)⟩

/-- C4, counterexample: with failures at the indices 1 through 9 and a
success at index 10, the code retries index 10 and succeeds, while the
claimed policy of retrying up to index 9 only would have aborted. -/
theorem c4_counterexample :
    get_data (fun i => if i = 10 then some () else Option.none) 1 = .ok () ∧
    get_data_claim (fun i => if i = 10 then some () else Option.none) 1 = .error () := by
  constructor
  · simp [get_data]
  · simp [get_data_claim]

/-- C4, amended: on the place-based path every failure at an index of at
most 9 increments the disambiguation index and retries, so attempted
indices run up to 10, not 9; the invocation aborts with an error, producing
no output, exactly when every index from the start through `max start 10`
fails (equivalently, when the failure occurs at an index exceeding 9). -/
theorem c4_amended (fetch : Nat → Option Graph) (husl : Nat → List (ℚ × ℚ × ℚ)) (w k : Nat) :
    (generate_image husl fetch w k = .error () ↔
      ∀ i, w ≤ i → i ≤ max w 10 → fetch i = Option.none) ∧
    (get_data fetch w = .error () ↔ ∀ i, w ≤ i → i ≤ max w 10 → fetch i = Option.none) := by
  refine ⟨?_, get_data_error_iff fetch w⟩
  rw [generate_image_error_iff]
  exact get_data_error_iff fetch w

/-- C4, witness: with an always-failing provider the whole invocation
aborts with an error. -/
theorem c4_witness :
    generate_image (fun _ => []) (fun _ => Option.none) 1 6 = .error () :=
  (c4_amended (fun _ => Option.none) (fun _ => []) 1 6).1.mpr (fun _ _ _ => rfl)

/-- C5: `most_common` returns the `k` entries of highest count, sorted by
count descending; entries with equal counts keep the relative order in
which the words were first seen (their filter by any fixed count is a
sublist of the accumulation order); every entry left out has a count at
most that of every entry kept; and the result has length `min k n`. -/
theorem c5_frequency_ranker (edges : List Edge) (k : Nat) :
    (mostCommon k (find_common_words edges)).Pairwise (fun a b => b.2 ≤ a.2) ∧
    (∀ c : Nat, ((mostCommon k (find_common_words edges)).filter (fun p => p.2 == c)).Sublist
      ((find_common_words edges).filter (fun p => p.2 == c))) ∧
    (∀ y ∈ find_common_words edges, y ∉ mostCommon k (find_common_words edges) →
      ∀ x ∈ mostCommon k (find_common_words edges), y.2 ≤ x.2) ∧
    (mostCommon k (find_common_words edges)).length = min k (find_common_words edges).length ∧
    (∀ x ∈ mostCommon k (find_common_words edges), x ∈ find_common_words edges) := by
  refine ⟨?_, ?_, ?_, ?_, ?_⟩
  · exact List.Pairwise.sublist (List.take_sublist _ _) (sortCountDesc_sorted _)
  · intro c
    have h1 := List.Sublist.filter (fun p => p.2 == c)
      (List.take_sublist k (sortCountDesc (find_common_words edges)))
    rw [sortCountDesc_filter] at h1
    exact h1
  · intro y hy hyn x hx
    have hys : y ∈ sortCountDesc (find_common_words edges) :=
      (sortCountDesc_perm _).mem_iff.mpr hy
    have hsplit := List.take_append_drop k (sortCountDesc (find_common_words edges))
    have hsorted := sortCountDesc_sorted (find_common_words edges)
    rw [← hsplit] at hsorted hys
    rcases List.mem_append.mp hys with hyt | hyd
    · exact absurd hyt hyn
    · exact (List.pairwise_append.mp hsorted).2.2 x hx y hyd
  · rw [mostCommon, List.length_take, (sortCountDesc_perm _).length_eq]
  · intro x hx
    exact (sortCountDesc_perm _).mem_iff.mp ((List.take_sublist _ _).subset hx)

/-- C5, witness: on one edge named `Oak Street Oak` with `k = 1`, the
dropped entry `street` has count at most that of the kept entry `oak`. -/
theorem c5_witness :
    (("street", 1) ∈ find_common_words [⟨PyVal.s "Oak Street Oak"⟩] ∧
     ("street", 1) ∉ mostCommon 1 (find_common_words [⟨PyVal.s "Oak Street Oak"⟩]) ∧
     ("oak", 2) ∈ mostCommon 1 (find_common_words [⟨PyVal.s "Oak Street Oak"⟩])) ∧
    (1 : Nat) ≤ 2 :=
  ⟨⟨by decide, by decide, by decide⟩,
    (c5_frequency_ranker [⟨PyVal.s "Oak Street Oak"⟩] 1).2.2.1 ("street", 1) (by decide)
      (by decide) ("oak", 2) (by decide)⟩

/-- C6: a string name is split on single spaces, each token lowercased;
exactly the tokens matching the stop-word set case-insensitively, of length
at most one, or made of digits only are excluded; and tokens are not
deduplicated within a name: each qualifying token is emitted once per
occurrence. -/
theorem c6_extractor (s : String) :
    extract_words (PyVal.s s) = ((pySplit s).filter validWord).map pyLower ∧
    (∀ t : String, validWord t = true ↔
      ¬(pyLower t ∈ STOP_WORDS ∨ t.length ≤ 1 ∨ pyIsDigit t = true)) ∧
    (∀ t : String, pyLower t ∈ STOP_WORDS ↔ ∃ sw ∈ STOP_WORDS, pyLower t = pyLower sw) ∧
    (∀ w : String, (extract_words (PyVal.s s)).count w
      = ((pySplit s).filter (fun t => validWord t && (pyLower t == w))).length) := by
  refine ⟨rfl, ?_, ?_, ?_⟩
  · intro t
    constructor
    · intro hv
      simp only [validWord, Bool.and_eq_true, Bool.not_eq_true', decide_eq_true_eq] at hv
      obtain ⟨⟨hsw, hlen⟩, hdig⟩ := hv
      push_neg
      refine ⟨?_, by omega, by simp [hdig]⟩
      intro hmem
      rw [(contains_iff_mem _ _).mpr hmem] at hsw
      cases hsw
    · intro hn
      push_neg at hn
      obtain ⟨h1, h2, h3⟩ := hn
      simp only [validWord, Bool.and_eq_true, Bool.not_eq_true', decide_eq_true_eq]
      refine ⟨⟨?_, by omega⟩, ?_⟩
      · cases hcb : STOP_WORDS.contains (pyLower t)
        · rfl
        · exact absurd ((contains_iff_mem _ _).mp hcb) h1
      · cases hdb : pyIsDigit t
        · rfl
        · exact absurd hdb h3
  · intro t
    constructor
    · intro hmem
      exact ⟨pyLower t, hmem, by rw [pyLower_idem]⟩
    · rintro ⟨sw, hsw, heq⟩
      rw [stop_words_lower_fixed sw hsw] at heq
      rw [heq]
      exact hsw
  · intro w
    exact count_map_filter (pySplit s) w

/-- C6, witness: concrete token filtering and per-occurrence counting. -/
theorem c6_witness :
    validWord "55" = false ∧ validWord "Street" = true ∧
    (extract_words (PyVal.s "Oak Oak St")).count "oak" = 2 ∧
    ((extract_words (PyVal.s "Oak Oak St")).count "oak"
      = ((pySplit "Oak Oak St").filter (fun t => validWord t && (pyLower t == "oak"))).length) :=
  ⟨by decide, by decide, by decide, (c6_extractor "Oak Oak St").2.2.2 "oak"⟩

theorem first_color_cases (rn : String) (palette : List (String × String)) :
    (∃ pre k c post, palette = pre ++ (k, c) :: post ∧ py_in k rn = true ∧
      (∀ q ∈ pre, py_in q.1 rn = false) ∧ first_color rn palette = c) ∨
    ((∀ q ∈ palette, py_in q.1 rn = false) ∧ first_color rn palette = "#c6c6c6") := by
  induction palette with
  | nil =>
    right
    exact ⟨fun q hq => absurd hq (List.not_mem_nil q), rfl⟩
  | cons p rest ih =>
    rcases p with ⟨k, v⟩
    cases hk : py_in k rn
    · rcases ih with ⟨pre, k2, c2, post, heq, hk2, hpre, hfc⟩ | ⟨hall, hfc⟩
      · left
        refine ⟨(k, v) :: pre, k2, c2, post, by rw [heq, List.cons_append], hk2, ?_, ?_⟩
        · intro q hq
          rcases List.mem_cons.mp hq with rfl | hq2
          · exact hk
          · exact hpre q hq2
        · rw [first_color, if_neg (by simp [hk]), hfc]
      · right
        refine ⟨?_, ?_⟩
        · intro q hq
          rcases List.mem_cons.mp hq with rfl | hq2
          · exact hk
          · exact hall q hq2
        · rw [first_color, if_neg (by simp [hk]), hfc]
    · left
      exact ⟨[], k, v, rest, rfl, hk, fun q hq => absurd hq (List.not_mem_nil q),
        by rw [first_color, if_pos hk]⟩

/-- C7: the resolver lowercases the stringified name and walks the palette
in mapping order: either some key is a substring and the color of the first
such key is returned, or no key is a substring and the default gray
`#c6c6c6` is returned. -/
theorem c7_resolver (name : PyVal) (palette : List (String × String)) :
    (∃ pre k c post, palette = pre ++ (k, c) :: post ∧
        py_in k (pyLower (pyStr name)) = true ∧
        (∀ q ∈ pre, py_in q.1 (pyLower (pyStr name)) = false) ∧
        color_for_road name palette = c) ∨
    ((∀ q ∈ palette, py_in q.1 (pyLower (pyStr name)) = false) ∧
        color_for_road name palette = "#c6c6c6") :=
  first_color_cases (pyLower (pyStr name)) palette

/-- C7, witness: concrete first-match resolution, skipping a non-matching
earlier key. -/
theorem c7_witness :
    ((∃ pre k c post, ([("zzz", "#111111"), ("street", "#222222")] : List (String × String))
        = pre ++ (k, c) :: post ∧
        py_in k (pyLower (pyStr (PyVal.s "Main Street"))) = true ∧
        (∀ q ∈ pre, py_in q.1 (pyLower (pyStr (PyVal.s "Main Street"))) = false) ∧
        color_for_road (PyVal.s "Main Street") [("zzz", "#111111"), ("street", "#222222")] = c) ∨
      ((∀ q ∈ ([("zzz", "#111111"), ("street", "#222222")] : List (String × String)),
          py_in q.1 (pyLower (pyStr (PyVal.s "Main Street"))) = false) ∧
        color_for_road (PyVal.s "Main Street") [("zzz", "#111111"), ("street", "#222222")]
          = "#c6c6c6")) ∧
    color_for_road (PyVal.s "Main Street") [("zzz", "#111111"), ("street", "#222222")]
      = "#222222" :=
  ⟨c7_resolver (PyVal.s "Main Street") [("zzz", "#111111"), ("street", "#222222")], by decide⟩

/-- C8: when the generated channels lie in `[0, 1]`, every color value of
the palette map is the 7-character string `#rrggbb` built from the three
channels scaled by 255 and truncated to integers, each lying in
`[0, 255]`. -/
theorem c8_palette_hex (items : List (String × Nat)) (husl : Nat → List (ℚ × ℚ × ℚ))
    (h : ∀ c ∈ husl items.length,
      0 ≤ c.1 ∧ c.1 ≤ 1 ∧ 0 ≤ c.2.1 ∧ c.2.1 ≤ 1 ∧ 0 ≤ c.2.2 ∧ c.2.2 ≤ 1) :
    ∀ v ∈ (palette_generator husl items).map Prod.snd,
      ∃ c ∈ husl items.length,
        v = "#" ++ fmt02x (pyInt255 c.1) ++ fmt02x (pyInt255 c.2.1) ++ fmt02x (pyInt255 c.2.2) ∧
        v.length = 7 ∧
        (0 ≤ pyInt255 c.1 ∧ pyInt255 c.1 ≤ 255) ∧
        (0 ≤ pyInt255 c.2.1 ∧ pyInt255 c.2.1 ≤ 255) ∧
        (0 ≤ pyInt255 c.2.2 ∧ pyInt255 c.2.2 ≤ 255) := by
  intro v hv
  rw [palette_generator] at hv
  have hv2 := pyDict_values_subset _ v hv
  have hv3 : v ∈ hexPalette (husl items.length) := by
    rcases List.mem_map.mp hv2 with ⟨⟨a, b⟩, hab, hvb⟩
    rcases List.of_mem_zip hab with ⟨_, hb⟩
    rw [← hvb]
    exact hb
  rcases List.mem_map.mp hv3 with ⟨c, hc, hvc⟩
  have hp := hexColor_props (h c hc)
  refine ⟨c, hc, ?_, ?_, hp.2.2.1, hp.2.2.2.1, hp.2.2.2.2⟩
  · rw [← hvc]
    exact hp.2.1
  · rw [← hvc]
    exact hp.1

/-- C8, witness: a single top word and the channel triple
`(1/2, 0, 1)` produce the 7-character palette value `#7f00ff`. -/
theorem c8_witness :
    (∀ c ∈ (fun _ : Nat => [((mkRat 1 2 : ℚ), (0 : ℚ), (1 : ℚ))])
        ([("street", 1)] : List (String × Nat)).length,
      0 ≤ c.1 ∧ c.1 ≤ 1 ∧ 0 ≤ c.2.1 ∧ c.2.1 ≤ 1 ∧ 0 ≤ c.2.2 ∧ c.2.2 ≤ 1) ∧
    "#7f00ff" ∈ (palette_generator (fun _ => [(mkRat 1 2, 0, 1)]) [("street", 1)]).map Prod.snd ∧
    (∃ c ∈ (fun _ : Nat => [((mkRat 1 2 : ℚ), (0 : ℚ), (1 : ℚ))])
        ([("street", 1)] : List (String × Nat)).length,
      ("#7f00ff" : String)
          = "#" ++ fmt02x (pyInt255 c.1) ++ fmt02x (pyInt255 c.2.1) ++ fmt02x (pyInt255 c.2.2) ∧
      ("#7f00ff" : String).length = 7 ∧
      (0 ≤ pyInt255 c.1 ∧ pyInt255 c.1 ≤ 255) ∧
      (0 ≤ pyInt255 c.2.1 ∧ pyInt255 c.2.1 ≤ 255) ∧
      (0 ≤ pyInt255 c.2.2 ∧ pyInt255 c.2.2 ≤ 255)) :=
  ⟨by decide, by decide,
    c8_palette_hex [("street", 1)] (fun _ => [(mkRat 1 2, 0, 1)]) (by decide) "#7f00ff" (by decide)⟩

/-- C9: the interleaved key list is a permutation of the top words; with
colors generated one per word, the key list of the palette map is that same
permutation, and every top word is bound exactly once. -/
theorem c9_keys_permutation (items : List (String × Nat)) (husl : Nat → List (ℚ × ℚ × ℚ))
    (hnd : (items.map Prod.fst).Nodup) (hlen : (husl items.length).length = items.length) :
    (interleaveKeys (items.map Prod.fst)).Perm (items.map Prod.fst) ∧
    ((palette_generator husl items).map Prod.fst).Perm (items.map Prod.fst) ∧
    ∀ w ∈ items.map Prod.fst, ((palette_generator husl items).map Prod.fst).count w = 1 := by
  have hperm := interleaveKeys_perm (items.map Prod.fst)
  have hndi : (interleaveKeys (items.map Prod.fst)).Nodup := hperm.nodup_iff.mpr hnd
  have hlen2 : (interleaveKeys (items.map Prod.fst)).length
      ≤ (hexPalette (husl items.length)).length := by
    rw [hexPalette, List.length_map, hlen, hperm.length_eq, List.length_map]
  have hzipkeys : ((interleaveKeys (items.map Prod.fst)).zip
        (hexPalette (husl items.length))).map Prod.fst
      = interleaveKeys (items.map Prod.fst) :=
    List.map_fst_zip _ _ hlen2
  have hzipnd : (((interleaveKeys (items.map Prod.fst)).zip
        (hexPalette (husl items.length))).map Prod.fst).Nodup := by
    rw [hzipkeys]
    exact hndi
  have hdict := pyDict_eq_self _ hzipnd
  refine ⟨hperm, ?_, ?_⟩
  · rw [palette_generator, hdict, hzipkeys]
    exact hperm
  · intro w hw
    have hmem : w ∈ (palette_generator husl items).map Prod.fst := by
      rw [palette_generator, hdict, hzipkeys]
      exact hperm.mem_iff.mpr hw
    have hnd2 : ((palette_generator husl items).map Prod.fst).Nodup := by
      rw [palette_generator, hdict, hzipkeys]
      exact hndi
    exact List.count_eq_one_of_mem hnd2 hmem

/-- C9, witness: two distinct top words, one generated color per word. -/
theorem c9_witness :
    ((([("oak", 2), ("pine", 1)] : List (String × Nat)).map Prod.fst).Nodup ∧
      ((fun n : Nat => List.replicate n ((0 : ℚ), (0 : ℚ), (0 : ℚ)))
          ([("oak", 2), ("pine", 1)] : List (String × Nat)).length).length
        = ([("oak", 2), ("pine", 1)] : List (String × Nat)).length) ∧
    ((palette_generator (fun n => List.replicate n (0, 0, 0)) [("oak", 2), ("pine", 1)]).map
        Prod.fst).Perm (([("oak", 2), ("pine", 1)] : List (String × Nat)).map Prod.fst) :=
  ⟨⟨by decide, by decide⟩,
    (c9_keys_permutation [("oak", 2), ("pine", 1)] (fun n => List.replicate n (0, 0, 0))
      (by decide) (by decide)).2.1⟩

/-- C10: every entry of the occurrence mapping has a count of at least one,
and every key is a lowercased token (lowercase-invariant) that is outside
the stop-word set and not composed entirely of digits. -/
theorem c10_occurrence_invariant (edges : List Edge) :
    ∀ p ∈ find_common_words edges,
      1 ≤ p.2 ∧ pyLower p.1 = p.1 ∧ p.1 ∉ STOP_WORDS ∧ pyIsDigit p.1 = false := by
  intro p hp
  have h := find_common_words_props
    (fun w => pyLower w = w ∧ w ∉ STOP_WORDS ∧ pyIsDigit w = false) edges
    (fun e _ w hw => by
      rcases extract_words_props hw with ⟨h1, h2, h3, _⟩
      exact ⟨h1, h2, h3⟩) p hp
  exact ⟨h.2, h.1.1, h.1.2.1, h.1.2.2⟩

/-- C10, witness: the entry for `oak` on one concrete edge list. -/
theorem c10_witness :
    ("oak", 2) ∈ find_common_words [⟨PyVal.s "Oak Road Oak"⟩] ∧
    (1 ≤ (("oak", 2) : String × Nat).2 ∧ pyLower ("oak", 2).1 = ("oak", 2).1 ∧
      (("oak", 2) : String × Nat).1 ∉ STOP_WORDS ∧ pyIsDigit ("oak", 2).1 = false) :=
  ⟨by decide, c10_occurrence_invariant [⟨PyVal.s "Oak Road Oak"⟩] ("oak", 2) (by decide)⟩

end OsmnxColorRoads
